import Mathlib

/-!
# Verification of the ignitero-launcher search-and-cache core

A shallow embedding, in Lean 4, of the search subsystem (`src-tauri/src/search.rs`)
and the cache subsystem (`src-tauri/src/cache.rs`) of the `ignitero-launcher`
repository, together with proofs of the behavioural properties stated in the
project's specification.

Conventions of the embedding:
* Rust `String` fields become Lean `String` (a list of Unicode scalar values;
  SQLite's `BINARY` collation on UTF-8 text coincides with lexicographic
  comparison of scalar values, which is `String`'s order here).
* Rust `i64` values (timestamps, fuzzy scores) become `Int`; `u32` becomes `Nat`.
  The arithmetic performed on them by the modelled code stays far away from the
  64-bit boundaries, so no wrap-around is modelled.
* Fallible SQLite operations become `Except RusqliteError`.
* The SQLite tables behind `CacheDB` are modelled as Lean lists of row
  structures kept in insertion order, with `DELETE`/`INSERT`/`SELECT ... ORDER BY`
  modelled as list operations; a transactional save either returns the fully
  replaced state or an error leaving the prior state untouched.
-/

namespace Ignitero

/-! ## Data model (`types.rs` as used by `search.rs` / `cache.rs`)

`AppItem` carries the localized display `name`, the unique bundle `path`, an
optional `icon_path`, and the optional non-localized `original_name` (present
exactly when it differs from `name`). -/

structure AppItem where
  name : String
  path : String
  icon_path : Option String
  original_name : Option String
deriving Repr, DecidableEq

structure DirectoryItem where
  name : String
  path : String
  editor : Option String
deriving Repr, DecidableEq

structure CommandItem where
  itemAlias : String
  command : String
  working_directory : Option String
deriving Repr, DecidableEq

/-! ## Normalizer (`search.rs::normalize_for_search`)

The Rust function maps each character through a full-width-to-half-width fold
and then lower-cases the collected string. -/

/-- The range test of `normalize_for_search`:
`('Ａ'..='Ｚ').contains(&c) || ('ａ'..='ｚ').contains(&c) || ('０'..='９').contains(&c)`. -/
def isFullWidthAlnum (c : Char) : Prop :=
  ('Ａ' ≤ c ∧ c ≤ 'Ｚ') ∨ ('ａ' ≤ c ∧ c ≤ 'ｚ') ∨ ('０' ≤ c ∧ c ≤ '９')

instance (c : Char) : Decidable (isFullWidthAlnum c) := by
  unfold isFullWidthAlnum; infer_instance

/-- Models `char::from_u32`: `some` of the character at the given scalar value,
`none` when the value is a surrogate or out of range. -/
def charFromU32 (n : Nat) : Option Char :=
  if h : n.isValidChar then some ⟨⟨n, by
    rcases h with h | ⟨_, h⟩ <;> omega⟩, by
      rcases h with h | h
      · exact Or.inl h
      · exact Or.inr h⟩
  else none

/-- One character of the fold in `normalize_for_search`:
`char::from_u32(c as u32 - 0xFEE0).unwrap_or(c)` applied when the full-width
range test holds, the identity otherwise. -/
def fullWidthFold (c : Char) : Char :=
  if isFullWidthAlnum c then (charFromU32 (c.toNat - 0xFEE0)).getD c else c

/-- Models Rust `str::to_lowercase`, character by character, restricted to the
cased code points the launcher's normalization pipeline can encounter after the
full-width fold and that the specification distinguishes: ASCII `A`–`Z` and
full-width `Ａ`–`Ｚ` map down by `0x20`; every other scalar value is fixed.
(Unicode lowercasing of the remaining cased scripts is irrelevant to the
claims; like the real function, this table never produces an upper-case or a
full-width alphanumeric character.) -/
def rustToLower (c : Char) : Char :=
  if ('A' ≤ c ∧ c ≤ 'Z') ∨ ('Ａ' ≤ c ∧ c ≤ 'Ｚ') then
    (charFromU32 (c.toNat + 0x20)).getD c
  else c

/-- `search.rs::normalize_for_search`: fold full-width alphanumerics to
half-width, then lower-case the collected string. -/
def normalize_for_search (s : String) : String :=
  ⟨(s.data.map fullWidthFold).map rustToLower⟩

example : normalize_for_search "ＡＢＣ" = "abc" := by decide
example : normalize_for_search "Safari" = "safari" := by decide

/-! ## Matcher

Modelled from the spec: the fuzzy matcher `search.rs` instantiates
(`SkimMatcherV2::fuzzy_match` of the external `fuzzy_matcher` crate) is not part
of the repository's sources. Per the specification it implements subsequence
fuzzy matching: a score exists iff every character of the needle occurs in the
haystack in order (not necessarily contiguously), the score rewards contiguity,
and the function is deterministic. `fuzzyGo` scans the haystack left to right,
consuming needle characters greedily; a character matched immediately after the
previously matched one earns `2`, any other match earns `1`; exhausting the
haystack with needle characters left over is a no-match. -/

def fuzzyGo : List Char → List Char → Bool → Int → Option Int
  | _, [], _, acc => some acc
  | [], _ :: _, _, _ => none
  | h :: hs, n :: ns, prevMatched, acc =>
    if h = n then fuzzyGo hs ns true (acc + (if prevMatched then 2 else 1))
    else fuzzyGo hs (n :: ns) false acc

/-- Modelled from the spec: `SkimMatcherV2::fuzzy_match(haystack, needle)`,
`some score` iff `needle` is a subsequence of `haystack`. -/
def fuzzy_match (haystack needle : String) : Option Int :=
  fuzzyGo haystack.data needle.data false 0

example : fuzzy_match "safari" "sf" = some 2 := by decide
example : fuzzy_match "safari" "fx" = none := by decide

/-! ## Stable sorting

`search.rs` sorts scored candidates with `results.sort_by(|a, b| b.0.cmp(&a.0))`
(Rust's `sort_by` is a stable sort; the comparator orders by score descending),
and `cache.rs` delegates ordering to SQLite's `ORDER BY name` (ascending,
bytewise on UTF-8, which on a `String`'s scalar values is exactly the
lexicographic order of its character list).  Both are modelled by one stable
insertion sort over a Boolean strictly-precedes comparison: elements are
consumed left to right and each is inserted behind every earlier element it
does not strictly precede, which preserves the input order of equal keys — the
unique behaviour of any stable sort for the comparator. -/

def insertSorted {α : Type} (ltb : α → α → Bool) (x : α) : List α → List α
  | [] => [x]
  | y :: ys => if ltb x y then x :: y :: ys else y :: insertSorted ltb x ys

def stableSortBy {α : Type} (ltb : α → α → Bool) (l : List α) : List α :=
  l.foldl (fun acc x => insertSorted ltb x acc) []

/-- The comparator of `sort_by(|a, b| b.0.cmp(&a.0))`: a scored pair strictly
precedes another exactly when its score is strictly greater. -/
def scoreDesc {α : Type} (p q : Int × α) : Bool :=
  decide (q.1 < p.1)

/-- The `ORDER BY name` collation: a row strictly precedes another exactly when
its name is lexicographically smaller. -/
def nameAsc (m n : String) : Bool :=
  decide (m.data < n.data)

/-! ## SearchEngine (`search.rs::SearchEngine`)

The engine holds no state beyond the (stateless) matcher, so its three search
methods are plain functions.  All three share one pipeline: normalize the
query, score every candidate (dropping the ones with no match), sort by score
descending, truncate to the top 20, and strip the scores. -/

/-- The per-app score of `search_apps` (lines 45–63 of `search.rs`): the score
of the normalized `name`, the score of the normalized `original_name` when that
field is present, combined by taking the maximum when both match and the sole
score when only one matches. -/
def appBestScore (app : AppItem) (normalized_query : String) : Option Int :=
  let name_score := fuzzy_match (normalize_for_search app.name) normalized_query
  let original_score := app.original_name.bind fun orig =>
    fuzzy_match (normalize_for_search orig) normalized_query
  match name_score, original_score with
  | some ns, some os => some (max ns os)
  | some ns, none => some ns
  | none, some os => some os
  | none, none => none

/-- The per-directory score of `search_directories`: the score of the
normalized `name`. -/
def dirScore (dir : DirectoryItem) (normalized_query : String) : Option Int :=
  fuzzy_match (normalize_for_search dir.name) normalized_query

/-- The per-command score of `search_commands`: the score of the normalized
`alias`. -/
def cmdScore (cmd : CommandItem) (normalized_query : String) : Option Int :=
  fuzzy_match (normalize_for_search cmd.itemAlias) normalized_query

/-- The `filter_map` stage shared by the three search methods: pair every
candidate that scores with its score, dropping the rest. -/
def scoredPairs {α : Type} (scoreOf : α → Option Int) (items : List α) :
    List (Int × α) :=
  items.filterMap fun it => (scoreOf it).map fun score => (score, it)

/-- The tail of the shared pipeline: stable-sort the scored pairs by score
descending (`sort_by(|a, b| b.0.cmp(&a.0))`), keep the first 20 (`take(20)`),
and return the items without their scores. -/
def rankTop20 {α : Type} (pairs : List (Int × α)) : List α :=
  ((stableSortBy scoreDesc pairs).take 20).map Prod.snd

/-- `search.rs::SearchEngine::search_apps`. -/
def search_apps (apps : List AppItem) (query : String) : List AppItem :=
  if query = "" then []
  else
    let normalized_query := normalize_for_search query
    rankTop20 (scoredPairs (fun app => appBestScore app normalized_query) apps)

/-- `search.rs::SearchEngine::search_directories`. -/
def search_directories (dirs : List DirectoryItem) (query : String) :
    List DirectoryItem :=
  if query = "" then []
  else
    let normalized_query := normalize_for_search query
    rankTop20 (scoredPairs (fun dir => dirScore dir normalized_query) dirs)

/-- `search.rs::SearchEngine::search_commands`. -/
def search_commands (commands : List CommandItem) (query : String) :
    List CommandItem :=
  if query = "" then []
  else
    let normalized_query := normalize_for_search query
    rankTop20 (scoredPairs (fun cmd => cmdScore cmd normalized_query) commands)

example :
    search_apps
      [⟨"Safari", "/Applications/Safari.app", none, none⟩,
       ⟨"Mail", "/Applications/Mail.app", none, none⟩] "saf" =
      [⟨"Safari", "/Applications/Safari.app", none, none⟩] := by decide

example :
    search_apps
      [⟨"ターミナル", "/Applications/Utilities/Terminal.app", none, some "Terminal"⟩] "ter" =
      [⟨"ターミナル", "/Applications/Utilities/Terminal.app", none, some "Terminal"⟩] := by
  decide

/-! ## Decimal conversion (Rust `i64::to_string` / `str::parse::<i64>`)

`cache.rs` stores the metadata timestamp as text (`timestamp.to_string()`) and
reads it back with `value.parse().unwrap_or(0)`.  Both library functions are
modelled here: standard decimal notation, a leading `-` for negative values,
parsing that accepts an optional sign followed by at least one decimal digit
and rejects anything else.  (Timestamps stay far below the `i64` overflow
boundary that would make `parse` fail on a string `to_string` produced.) -/

/-- The digit-emitting loop of decimal formatting: peel the least significant
digit until the value is exhausted.  The first argument is fuel bounding the
number of digits, as in the runtime's own formatter. -/
def natToDigitsCore : Nat → Nat → List Char → List Char
  | 0, _, ds => ds
  | fuel + 1, n, ds =>
    let d := Nat.digitChar (n % 10)
    let q := n / 10
    if q = 0 then d :: ds else natToDigitsCore fuel q (d :: ds)

/-- The decimal digit characters of `n`, most significant first. -/
def natToDigits (n : Nat) : List Char :=
  natToDigitsCore (n + 1) n []

/-- The fuel-free specification of the digit list, used by the proofs:
`natToDigits` is shown to coincide with it. -/
def natDigits (n : Nat) : List Char :=
  if h : n < 10 then [Nat.digitChar n]
  else
    have : n / 10 < n := Nat.div_lt_self (by omega) (by omega)
    natDigits (n / 10) ++ [Nat.digitChar (n % 10)]

/-- Models Rust `i64::to_string` on the mathematical value. -/
def rustIntToString (t : Int) : String :=
  if t < 0 then ⟨'-' :: natToDigits (-t).toNat⟩ else ⟨natToDigits t.toNat⟩

/-- The numeric value of a decimal digit character, `none` for any other
character. -/
def charDigit (c : Char) : Option Nat :=
  if '0' ≤ c ∧ c ≤ '9' then some (c.toNat - '0'.toNat) else none

def parseDigitsAux : List Char → Nat → Option Nat
  | [], acc => some acc
  | c :: cs, acc =>
    match charDigit c with
    | some d => parseDigitsAux cs (acc * 10 + d)
    | none => none

/-- A non-empty all-digit character list read as a decimal number. -/
def parseDigits : List Char → Option Nat
  | [] => none
  | c :: cs => parseDigitsAux (c :: cs) 0

/-- Models Rust `str::parse::<i64>` on the mathematical value: an optional
sign followed by one or more decimal digits. -/
def rustParseInt (s : String) : Option Int :=
  match s.data with
  | [] => none
  | c :: cs =>
    if c = '-' then (parseDigits cs).map fun n => -(n : Int)
    else if c = '+' then (parseDigits cs).map fun n => (n : Int)
    else (parseDigits (c :: cs)).map fun n => (n : Int)

example : rustParseInt (rustIntToString 1234567890) = some 1234567890 := by decide
example : rustParseInt (rustIntToString (-7200)) = some (-7200) := by decide
example : rustParseInt "12x" = none := by decide

/-! ## Cache Store (`cache.rs::CacheDB`)

The SQLite database behind `CacheDB` is modelled as three tables held as lists
of rows in insertion (rowid) order.  `rusqlite` errors are modelled by
`RusqliteError`: the `QueryReturnedNoRows` variant a row-less `query_row`
returns, the constraint violation an `INSERT` breaking `path UNIQUE` raises,
and an environmental storage failure (disk I/O error, corruption).  An
operation wrapped in a transaction either returns the fully updated database or
an error — the caller's prior state is untouched on failure, which is exactly
the atomicity the transaction provides. -/

structure AppRow where
  name : String
  path : String
  icon_path : Option String
  original_name : Option String
  last_updated : Int
deriving Repr, DecidableEq

structure DirectoryRow where
  name : String
  path : String
  editor : Option String
  last_updated : Int
deriving Repr, DecidableEq

inductive RusqliteError where
  | queryReturnedNoRows
  | constraintViolation (msg : String)
  | storage (msg : String)
deriving Repr, DecidableEq

deriving instance DecidableEq for Except

structure CacheDB where
  apps : List AppRow
  directories : List DirectoryRow
  metadata : List (String × String)
deriving Repr, DecidableEq

/-- A freshly initialized store (`new_in_memory` after `init_tables`): all
three tables empty. -/
def CacheDB.empty : CacheDB := ⟨[], [], []⟩

/-- One `INSERT INTO apps` of `save_apps`: appends the row, failing when the
`path UNIQUE` constraint is violated. -/
def insertAppRow (rows : List AppRow) (app : AppItem) (now : Int) :
    Except RusqliteError (List AppRow) :=
  if rows.any fun r => r.path = app.path then
    .error (.constraintViolation "UNIQUE constraint failed: apps.path")
  else
    .ok (rows ++ [⟨app.name, app.path, app.icon_path, app.original_name, now⟩])

/-- `cache.rs::CacheDB::save_apps`: inside one transaction, `DELETE FROM apps`
then insert every item tagged with the current epoch seconds `now`; commit
replaces the table, any failure leaves the caller's database unchanged. -/
def save_apps (db : CacheDB) (apps : List AppItem) (now : Int) :
    Except RusqliteError CacheDB := do
  let rows ← apps.foldlM (fun rows app => insertAppRow rows app now) ([] : List AppRow)
  .ok { db with apps := rows }

def appRowToItem (r : AppRow) : AppItem :=
  ⟨r.name, r.path, r.icon_path, r.original_name⟩

/-- `cache.rs::CacheDB::load_apps`:
`SELECT name, path, icon_path, original_name FROM apps ORDER BY name`. -/
def load_apps (db : CacheDB) : List AppItem :=
  (stableSortBy (fun r s => nameAsc r.name s.name) db.apps).map appRowToItem

/-- One `INSERT INTO directories` of `save_directories`. -/
def insertDirectoryRow (rows : List DirectoryRow) (dir : DirectoryItem)
    (now : Int) : Except RusqliteError (List DirectoryRow) :=
  if rows.any fun r => r.path = dir.path then
    .error (.constraintViolation "UNIQUE constraint failed: directories.path")
  else
    .ok (rows ++ [⟨dir.name, dir.path, dir.editor, now⟩])

/-- `cache.rs::CacheDB::save_directories`: transactional delete-then-insert,
mirroring `save_apps`. -/
def save_directories (db : CacheDB) (dirs : List DirectoryItem) (now : Int) :
    Except RusqliteError CacheDB := do
  let rows ← dirs.foldlM (fun rows dir => insertDirectoryRow rows dir now)
    ([] : List DirectoryRow)
  .ok { db with directories := rows }

def directoryRowToItem (r : DirectoryRow) : DirectoryItem :=
  ⟨r.name, r.path, r.editor⟩

/-- `cache.rs::CacheDB::load_directories`:
`SELECT name, path, editor FROM directories ORDER BY name`. -/
def load_directories (db : CacheDB) : List DirectoryItem :=
  (stableSortBy (fun r s => nameAsc r.name s.name) db.directories).map directoryRowToItem

/-- `cache.rs::CacheDB::is_empty`: both count queries are zero. -/
def CacheDB.is_empty (db : CacheDB) : Bool :=
  db.apps.length = 0 && db.directories.length = 0

/-- The `query_row` of `get_last_update_time`
(`SELECT value FROM metadata WHERE key = 'last_update_time'`) against a
database the environment reads successfully: the stored value, or the
`QueryReturnedNoRows` error when the key has no row. -/
def metadataQuery (db : CacheDB) : Except RusqliteError String :=
  match db.metadata.lookup "last_update_time" with
  | some v => .ok v
  | none => .error .queryReturnedNoRows

/-- The `match` of `cache.rs::get_last_update_time` (lines 210–213), as a
function of the metadata query's outcome:
`Ok(value) => Ok(Some(value.parse().unwrap_or(0))), Err(_) => Ok(None)`. -/
def get_last_update_time_from (result : Except RusqliteError String) :
    Except RusqliteError (Option Int) :=
  match result with
  | .ok value => .ok (some ((rustParseInt value).getD 0))
  | .error _ => .ok none

/-- `cache.rs::CacheDB::get_last_update_time` against a database the
environment reads successfully. -/
def get_last_update_time (db : CacheDB) : Except RusqliteError (Option Int) :=
  get_last_update_time_from (metadataQuery db)

/-- `cache.rs::CacheDB::set_last_update_time`:
`INSERT OR REPLACE INTO metadata (key, value) VALUES ('last_update_time', ?)`
with the timestamp rendered by `to_string()`. -/
def set_last_update_time (db : CacheDB) (timestamp : Int) : CacheDB :=
  { db with
    metadata := (db.metadata.filter fun kv => kv.1 ≠ "last_update_time") ++
      [("last_update_time", rustIntToString timestamp)] }

/-- `cache.rs::CacheDB::needs_update`: `true` when no timestamp is recorded,
otherwise `now - last_update >= interval_hours as i64 * 3600`; an error of
`get_last_update_time` propagates through the `?` operator. -/
def needs_update (db : CacheDB) (now : Int) (interval_hours : Nat) :
    Except RusqliteError Bool :=
  match get_last_update_time db with
  | .error e => .error e
  | .ok (some last_update) =>
    let interval_seconds : Int := (interval_hours : Int) * 3600
    .ok (decide (interval_seconds ≤ now - last_update))
  | .ok none => .ok true

/-- `cache.rs::CacheDB::clear_cache`: empty all three tables. -/
def clear_cache (db : CacheDB) : CacheDB :=
  { db with apps := [], directories := [], metadata := [] }

example :
    save_apps CacheDB.empty
      [⟨"Safari", "/Applications/Safari.app", none, none⟩,
       ⟨"Mail", "/Applications/Mail.app", some "/path/to/icon.png", none⟩] 5 =
    .ok ⟨[⟨"Safari", "/Applications/Safari.app", none, none, 5⟩,
          ⟨"Mail", "/Applications/Mail.app", some "/path/to/icon.png", none, 5⟩], [], []⟩ := by
  decide

example :
    load_apps ⟨[⟨"Safari", "/Applications/Safari.app", none, none, 5⟩,
                ⟨"Mail", "/Applications/Mail.app", some "/path/to/icon.png", none, 5⟩], [], []⟩ =
      [⟨"Mail", "/Applications/Mail.app", some "/path/to/icon.png", none⟩,
       ⟨"Safari", "/Applications/Safari.app", none, none⟩] := by
  decide

example :
    needs_update (set_last_update_time CacheDB.empty 1234567890) 1234567890 1 =
      .ok false := by decide

example :
    needs_update (set_last_update_time CacheDB.empty (1234567890 - 7200)) 1234567890 1 =
      .ok true := by decide

/-! ## Lemmas about the stable insertion sort

The three behavioural facts any stable comparator sort enjoys, stated for a
comparator that decides a strict order of keys in a linear order: the output is
a permutation of the input, the output is sorted by key, and the elements of
any one key keep their input order. -/

theorem insertSorted_perm {α : Type} (ltb : α → α → Bool) (x : α) :
    ∀ l : List α, (insertSorted ltb x l).Perm (x :: l)
  | [] => by simp [insertSorted]
  | y :: ys => by
    simp only [insertSorted]
    split
    · exact .refl _
    · exact ((insertSorted_perm ltb x ys).cons y).trans (.swap x y ys)

theorem stableSortBy_go_perm {α : Type} (ltb : α → α → Bool) :
    ∀ (l acc : List α),
      (l.foldl (fun acc x => insertSorted ltb x acc) acc).Perm (acc ++ l)
  | [], acc => by simp
  | x :: l, acc => by
    simp only [List.foldl_cons]
    refine (stableSortBy_go_perm ltb l (insertSorted ltb x acc)).trans ?_
    exact (((insertSorted_perm ltb x acc).append_right l).trans
      List.perm_middle.symm).symm.symm

theorem stableSortBy_perm {α : Type} (ltb : α → α → Bool) (l : List α) :
    (stableSortBy ltb l).Perm l := by
  simpa [stableSortBy] using stableSortBy_go_perm ltb l []

theorem insertSorted_pairwise {α κ : Type} [LinearOrder κ] (key : α → κ)
    (ltb : α → α → Bool) (hltb : ∀ a b, ltb a b = true ↔ key a < key b)
    (x : α) : ∀ l : List α, l.Pairwise (fun a b => key a ≤ key b) →
      (insertSorted ltb x l).Pairwise (fun a b => key a ≤ key b)
  | [], _ => by simp [insertSorted]
  | y :: ys, hp => by
    rcases List.pairwise_cons.mp hp with ⟨hy, hys⟩
    simp only [insertSorted]
    by_cases h : ltb x y = true
    · rw [if_pos h]
      have hxy : key x < key y := (hltb x y).mp h
      refine List.Pairwise.cons ?_ hp
      intro z hz
      rcases List.mem_cons.mp hz with rfl | hz
      · exact hxy.le
      · exact hxy.le.trans (hy z hz)
    · rw [if_neg h]
      have hyx : key y ≤ key x :=
        le_of_not_lt fun hc => h ((hltb x y).mpr hc)
      refine List.Pairwise.cons ?_ (insertSorted_pairwise key ltb hltb x ys hys)
      intro z hz
      rcases List.mem_cons.mp ((insertSorted_perm ltb x ys).mem_iff.mp hz) with rfl | hz
      · exact hyx
      · exact hy z hz

theorem stableSortBy_go_pairwise {α κ : Type} [LinearOrder κ] (key : α → κ)
    (ltb : α → α → Bool) (hltb : ∀ a b, ltb a b = true ↔ key a < key b) :
    ∀ (l acc : List α), acc.Pairwise (fun a b => key a ≤ key b) →
      (l.foldl (fun acc x => insertSorted ltb x acc) acc).Pairwise
        (fun a b => key a ≤ key b)
  | [], _, hacc => hacc
  | x :: l, acc, hacc => by
    simp only [List.foldl_cons]
    exact stableSortBy_go_pairwise key ltb hltb l (insertSorted ltb x acc)
      (insertSorted_pairwise key ltb hltb x acc hacc)

theorem stableSortBy_pairwise {α κ : Type} [LinearOrder κ] (key : α → κ)
    (ltb : α → α → Bool) (hltb : ∀ a b, ltb a b = true ↔ key a < key b)
    (l : List α) :
    (stableSortBy ltb l).Pairwise (fun a b => key a ≤ key b) :=
  stableSortBy_go_pairwise key ltb hltb l [] (by simp)

theorem filter_insertSorted {α κ : Type} [LinearOrder κ] (key : α → κ)
    (ltb : α → α → Bool) (hltb : ∀ a b, ltb a b = true ↔ key a < key b)
    (s : κ) (x : α) : ∀ l : List α, l.Pairwise (fun a b => key a ≤ key b) →
      (insertSorted ltb x l).filter (fun a => key a = s) =
        l.filter (fun a => key a = s) ++ if key x = s then [x] else []
  | [], _ => by
    by_cases hxs : key x = s <;> simp [insertSorted, hxs]
  | y :: ys, hp => by
    rcases List.pairwise_cons.mp hp with ⟨hy, hys⟩
    simp only [insertSorted]
    by_cases h : ltb x y = true
    · rw [if_pos h]
      have hxy : key x < key y := (hltb x y).mp h
      by_cases hxs : key x = s
      · have hnil : (y :: ys).filter (fun a => key a = s) = [] := by
          refine List.filter_eq_nil_iff.mpr ?_
          intro z hz
          have hlt : key x < key z := by
            rcases List.mem_cons.mp hz with rfl | hz
            · exact hxy
            · exact lt_of_lt_of_le hxy (hy z hz)
          simp only [decide_eq_true_eq]
          exact fun hzs => absurd (hxs ▸ hzs : key z = key x) (ne_of_gt hlt)
        simp [hxs, hnil, List.filter_cons]
      · simp [hxs, List.filter_cons]
    · rw [if_neg h]
      have ih := filter_insertSorted key ltb hltb s x ys hys
      by_cases hys' : key y = s <;>
        simp [List.filter_cons, hys', ih]

theorem stableSortBy_go_filter {α κ : Type} [LinearOrder κ] (key : α → κ)
    (ltb : α → α → Bool) (hltb : ∀ a b, ltb a b = true ↔ key a < key b)
    (s : κ) : ∀ (l acc : List α), acc.Pairwise (fun a b => key a ≤ key b) →
      (l.foldl (fun acc x => insertSorted ltb x acc) acc).filter
          (fun a => key a = s) =
        acc.filter (fun a => key a = s) ++ l.filter (fun a => key a = s)
  | [], acc, _ => by simp
  | x :: l, acc, hacc => by
    simp only [List.foldl_cons]
    rw [stableSortBy_go_filter key ltb hltb s l (insertSorted ltb x acc)
      (insertSorted_pairwise key ltb hltb x acc hacc)]
    rw [filter_insertSorted key ltb hltb s x acc hacc]
    by_cases hxs : key x = s <;> simp [List.filter_cons, hxs]

/-- Stability of the shared sort: the elements carrying any one key appear in
the output exactly as they appear in the input. -/
theorem stableSortBy_filter {α κ : Type} [LinearOrder κ] (key : α → κ)
    (ltb : α → α → Bool) (hltb : ∀ a b, ltb a b = true ↔ key a < key b)
    (s : κ) (l : List α) :
    (stableSortBy ltb l).filter (fun a => key a = s) =
      l.filter (fun a => key a = s) :=
  by simpa [stableSortBy] using stableSortBy_go_filter key ltb hltb s l [] (by simp)

/-- The score-descending comparator decides the strict order of dualized
scores. -/
theorem scoreDesc_iff {α : Type} (p q : Int × α) :
    scoreDesc p q = true ↔
      OrderDual.toDual p.1 < OrderDual.toDual q.1 := by
  simp [scoreDesc]

/-- The name collation decides the strict lexicographic order of the names'
character lists. -/
theorem nameAsc_iff (m n : String) :
    nameAsc m n = true ↔ m.data < n.data := by
  simp [nameAsc]

/-! ## Lemmas about the scoring pipeline -/

theorem mem_scoredPairs {α : Type} (scoreOf : α → Option Int) (items : List α)
    (p : Int × α) (hp : p ∈ scoredPairs scoreOf items) :
    scoreOf p.2 = some p.1 ∧ p.2 ∈ items := by
  rcases List.mem_filterMap.mp hp with ⟨it, hit, hmap⟩
  rcases Option.map_eq_some'.mp hmap with ⟨s, hs, hp'⟩
  subst hp'
  exact ⟨hs, hit⟩

theorem map_snd_scoredPairs {α : Type} (scoreOf : α → Option Int) :
    ∀ items : List α, (scoredPairs scoreOf items).map Prod.snd =
      items.filter fun it => (scoreOf it).isSome
  | [] => rfl
  | it :: items => by
    have ih := map_snd_scoredPairs scoreOf items
    rcases hs : scoreOf it with _ | s <;>
      simp_all [scoredPairs, List.filterMap_cons, List.filter_cons]

theorem length_scoredPairs {α : Type} (scoreOf : α → Option Int)
    (items : List α) : (scoredPairs scoreOf items).length =
      items.countP fun it => (scoreOf it).isSome := by
  have := congrArg List.length (map_snd_scoredPairs scoreOf items)
  simpa [List.countP_eq_length_filter] using this

/-! ## Lemmas about the normalizer -/

theorem charFromU32_getD_toNat (n : Nat) (h : n.isValidChar) (c : Char) :
    ((charFromU32 n).getD c).toNat = n := by
  unfold charFromU32
  rw [dif_pos h]
  rfl

/-- Any character whose scalar value lies in ASCII lower-alnum territory is
fixed by both stages of normalization. -/
theorem normalize_stage_fixed (d : Char)
    (hd : (0x61 ≤ d.toNat ∧ d.toNat ≤ 0x7A) ∨ (0x30 ≤ d.toNat ∧ d.toNat ≤ 0x39)) :
    fullWidthFold d = d ∧ rustToLower d = d := by
  have hnfw : ¬ isFullWidthAlnum d := fun h => by
    have h' : (0xFF21 ≤ d.toNat ∧ d.toNat ≤ 0xFF3A) ∨
        (0xFF41 ≤ d.toNat ∧ d.toNat ≤ 0xFF5A) ∨
        (0xFF10 ≤ d.toNat ∧ d.toNat ≤ 0xFF19) := h
    omega
  have hnup : ¬ (('A' ≤ d ∧ d ≤ 'Z') ∨ ('Ａ' ≤ d ∧ d ≤ 'Ｚ')) := fun h => by
    have h' : (0x41 ≤ d.toNat ∧ d.toNat ≤ 0x5A) ∨
        (0xFF21 ≤ d.toNat ∧ d.toNat ≤ 0xFF3A) := h
    omega
  constructor
  · unfold fullWidthFold
    rw [if_neg hnfw]
  · unfold rustToLower
    rw [if_neg hnup]

/-- The composite per-character normalization reaches a fixed point of both
stages after one application. -/
theorem normChar_fixed (c : Char) :
    fullWidthFold (rustToLower (fullWidthFold c)) = rustToLower (fullWidthFold c) ∧
      rustToLower (rustToLower (fullWidthFold c)) = rustToLower (fullWidthFold c) := by
  by_cases hfw : isFullWidthAlnum c
  · have hffold : (fullWidthFold c).toNat = c.toNat - 0xFEE0 := by
      have hvalid : (c.toNat - 0xFEE0).isValidChar := by
        have h' : (0xFF21 ≤ c.toNat ∧ c.toNat ≤ 0xFF3A) ∨
            (0xFF41 ≤ c.toNat ∧ c.toNat ≤ 0xFF5A) ∨
            (0xFF10 ≤ c.toNat ∧ c.toNat ≤ 0xFF19) := hfw
        unfold Nat.isValidChar
        omega
      unfold fullWidthFold
      rw [if_pos hfw]
      exact charFromU32_getD_toNat _ hvalid c
    have h' : (0xFF21 ≤ c.toNat ∧ c.toNat ≤ 0xFF3A) ∨
        (0xFF41 ≤ c.toNat ∧ c.toNat ≤ 0xFF5A) ∨
        (0xFF10 ≤ c.toNat ∧ c.toNat ≤ 0xFF19) := hfw
    rcases h' with ⟨h1, h2⟩ | ⟨h1, h2⟩ | ⟨h1, h2⟩
    · -- full-width upper: the fold lands in ASCII upper, lowering shifts down
      have hup : ('A' ≤ fullWidthFold c ∧ fullWidthFold c ≤ 'Z') ∨
          ('Ａ' ≤ fullWidthFold c ∧ fullWidthFold c ≤ 'Ｚ') := by
        refine Or.inl ?_
        show 0x41 ≤ (fullWidthFold c).toNat ∧ (fullWidthFold c).toNat ≤ 0x5A
        omega
      have hlow : (rustToLower (fullWidthFold c)).toNat =
          (fullWidthFold c).toNat + 0x20 := by
        unfold rustToLower
        rw [if_pos hup]
        refine charFromU32_getD_toNat _ ?_ _
        unfold Nat.isValidChar
        omega
      exact normalize_stage_fixed _ (Or.inl (by omega))
    · -- full-width lower: the fold lands in ASCII lower, lowering fixes it
      have hfix : rustToLower (fullWidthFold c) = fullWidthFold c :=
        (normalize_stage_fixed _ (Or.inl (by omega))).2
      rw [hfix]
      exact normalize_stage_fixed _ (Or.inl (by omega))
    · -- full-width digit: the fold lands in ASCII digits, lowering fixes it
      have hfix : rustToLower (fullWidthFold c) = fullWidthFold c :=
        (normalize_stage_fixed _ (Or.inr (by omega))).2
      rw [hfix]
      exact normalize_stage_fixed _ (Or.inr (by omega))
  · have hffold : fullWidthFold c = c := by
      unfold fullWidthFold
      rw [if_neg hfw]
    rw [hffold]
    by_cases hup : ('A' ≤ c ∧ c ≤ 'Z') ∨ ('Ａ' ≤ c ∧ c ≤ 'Ｚ')
    · have hascii : 0x41 ≤ c.toNat ∧ c.toNat ≤ 0x5A := by
        rcases hup with h | h
        · exact h
        · exact absurd (Or.inl (show 0xFF21 ≤ c.toNat ∧ c.toNat ≤ 0xFF3A from h)) hfw
      have hlow : (rustToLower c).toNat = c.toNat + 0x20 := by
        unfold rustToLower
        rw [if_pos hup]
        refine charFromU32_getD_toNat _ ?_ _
        unfold Nat.isValidChar
        omega
      exact normalize_stage_fixed _ (Or.inl (by omega))
    · have hlowfix : rustToLower c = c := by
        unfold rustToLower
        rw [if_neg hup]
      rw [hlowfix]
      constructor
      · unfold fullWidthFold
        rw [if_neg hfw]
      · unfold rustToLower
        rw [if_neg hup]

/-- C7: `normalize_for_search` is a pure total Lean function; it maps the empty
string to the empty string, and it is idempotent: normalizing twice equals
normalizing once, for every string. -/
theorem normalize_for_search_total_idempotent :
    normalize_for_search "" = "" ∧
      ∀ s : String, normalize_for_search (normalize_for_search s) =
        normalize_for_search s := by
  refine ⟨rfl, fun s => ?_⟩
  show String.mk _ = String.mk _
  simp only [normalize_for_search, List.map_map]
  refine congrArg String.mk ?_
  refine List.map_congr_left fun c _ => ?_
  show rustToLower (fullWidthFold (rustToLower (fullWidthFold c))) =
    rustToLower (fullWidthFold c)
  rw [(normChar_fixed c).1, (normChar_fixed c).2]

/-- C8: `normalize_for_search` folds every full-width Latin letter and
full-width digit down by the fixed offset `0xFEE0`, leaves every other
character un-folded, and lower-cases afterwards, as witnessed on the
specification's examples. -/
theorem normalize_fullwidth_fold_spec :
    (∀ c : Char, isFullWidthAlnum c →
        (fullWidthFold c).toNat = c.toNat - 0xFEE0) ∧
      (∀ c : Char, ¬ isFullWidthAlnum c → fullWidthFold c = c) ∧
      normalize_for_search "ＡＢＣ" = "abc" ∧
      normalize_for_search "０１２" = "012" ∧
      normalize_for_search "Ａｂｃ１２３" = "abc123" := by
  refine ⟨fun c hfw => ?_, fun c hfw => ?_, by decide, by decide, by decide⟩
  · have h' : (0xFF21 ≤ c.toNat ∧ c.toNat ≤ 0xFF3A) ∨
        (0xFF41 ≤ c.toNat ∧ c.toNat ≤ 0xFF5A) ∨
        (0xFF10 ≤ c.toNat ∧ c.toNat ≤ 0xFF19) := hfw
    unfold fullWidthFold
    rw [if_pos hfw]
    refine charFromU32_getD_toNat _ ?_ _
    unfold Nat.isValidChar
    omega
  · unfold fullWidthFold
    rw [if_neg hfw]

/-- Witness for C8 at concrete characters: the full-width `Ａ` folds to scalar
value `0x41`, and the hiragana `あ` (outside the folded ranges) is left
un-folded. -/
theorem normalize_fullwidth_fold_spec_witness :
    (fullWidthFold 'Ａ').toNat = 'Ａ'.toNat - 0xFEE0 ∧ fullWidthFold 'あ' = 'あ' :=
  ⟨normalize_fullwidth_fold_spec.1 'Ａ' (by decide),
    normalize_fullwidth_fold_spec.2.1 'あ' (by decide)⟩

/-- C6: searching with the empty query returns the empty list for every item
collection, in all three search methods. -/
theorem empty_query_returns_nothing
    (apps : List AppItem) (dirs : List DirectoryItem) (commands : List CommandItem) :
    search_apps apps "" = [] ∧ search_directories dirs "" = [] ∧
      search_commands commands "" = [] := by
  refine ⟨?_, ?_, ?_⟩ <;> simp [search_apps, search_directories, search_commands]

/-! ## Lemmas about the matcher -/

theorem fuzzyGo_isSome_iff : ∀ (hs ns : List Char) (b : Bool) (acc : Int),
    (fuzzyGo hs ns b acc).isSome = true ↔ ns.Sublist hs
  | _, [], _, acc => by simp [fuzzyGo, List.nil_sublist]
  | [], n :: ns, b, acc => by simp [fuzzyGo]
  | h :: hs, n :: ns, b, acc => by
    simp only [fuzzyGo]
    by_cases he : h = n
    · subst he
      rw [if_pos rfl, fuzzyGo_isSome_iff hs ns true _]
      exact (List.cons_sublist_cons).symm
    · rw [if_neg he, fuzzyGo_isSome_iff hs (n :: ns) false acc]
      constructor
      · exact fun hsub => hsub.cons h
      · intro hsub
        cases hsub with
        | cons _ h' => exact h'
        | cons₂ => exact absurd rfl he

/-- C3: the modelled fuzzy matcher applied to a normalized haystack returns a
score exactly when the needle's characters occur, in order, within the
normalized haystack (spec-modelled: the matcher itself is the external
`fuzzy_matcher` crate). -/
theorem fuzzy_match_some_iff_subsequence (h n : String) :
    (fuzzy_match (normalize_for_search h) n).isSome = true ↔
      n.data.Sublist (normalize_for_search h).data :=
  fuzzyGo_isSome_iff (normalize_for_search h).data n.data false 0

/-! ## Lemmas about the ranking pipeline -/

theorem stableSortBy_scoreDesc_pairwise {α : Type} (pairs : List (Int × α)) :
    (stableSortBy scoreDesc pairs).Pairwise fun p q => q.1 ≤ p.1 := by
  have := stableSortBy_pairwise (fun p : Int × α => OrderDual.toDual p.1)
    scoreDesc scoreDesc_iff pairs
  exact this.imp fun h => OrderDual.toDual_le_toDual.mp h

theorem rankTop20_pairwise {α : Type} (scoreOf : α → Option Int)
    (items : List α) :
    (rankTop20 (scoredPairs scoreOf items)).Pairwise fun a b =>
      ∀ sa sb, scoreOf a = some sa → scoreOf b = some sb → sb ≤ sa := by
  unfold rankTop20
  rw [List.pairwise_map]
  have hsorted := (stableSortBy_scoreDesc_pairwise
    (scoredPairs scoreOf items)).sublist (List.take_sublist 20 _)
  refine hsorted.imp_of_mem fun {p} {q} hp hq hle => ?_
  have hmemp : p ∈ scoredPairs scoreOf items :=
    (stableSortBy_perm scoreDesc _).mem_iff.mp ((List.take_sublist 20 _).mem hp)
  have hmemq : q ∈ scoredPairs scoreOf items :=
    (stableSortBy_perm scoreDesc _).mem_iff.mp ((List.take_sublist 20 _).mem hq)
  have hp' := (mem_scoredPairs scoreOf items p hmemp).1
  have hq' := (mem_scoredPairs scoreOf items q hmemq).1
  intro sa sb hsa hsb
  rw [hp'] at hsa
  rw [hq'] at hsb
  cases Option.some.inj hsa
  cases Option.some.inj hsb
  exact hle

theorem rankTop20_length {α : Type} (scoreOf : α → Option Int)
    (items : List α) :
    (rankTop20 (scoredPairs scoreOf items)).length =
      min 20 (items.countP fun it => (scoreOf it).isSome) := by
  unfold rankTop20
  rw [List.length_map, List.length_take,
    (stableSortBy_perm scoreDesc _).length_eq, length_scoredPairs]

/-- C4: all three search methods return a list sorted by descending fuzzy
score, of length at most 20; with a non-empty query and at least 20 matching
candidates, the length is exactly 20. -/
theorem search_results_sorted_and_capped
    (apps : List AppItem) (dirs : List DirectoryItem)
    (commands : List CommandItem) (query : String) :
    ((search_apps apps query).Pairwise (fun a b => ∀ sa sb,
        appBestScore a (normalize_for_search query) = some sa →
        appBestScore b (normalize_for_search query) = some sb → sb ≤ sa) ∧
      (search_apps apps query).length ≤ 20 ∧
      (query ≠ "" →
        20 ≤ apps.countP (fun a => (appBestScore a (normalize_for_search query)).isSome) →
        (search_apps apps query).length = 20)) ∧
    ((search_directories dirs query).Pairwise (fun a b => ∀ sa sb,
        dirScore a (normalize_for_search query) = some sa →
        dirScore b (normalize_for_search query) = some sb → sb ≤ sa) ∧
      (search_directories dirs query).length ≤ 20 ∧
      (query ≠ "" →
        20 ≤ dirs.countP (fun a => (dirScore a (normalize_for_search query)).isSome) →
        (search_directories dirs query).length = 20)) ∧
    ((search_commands commands query).Pairwise (fun a b => ∀ sa sb,
        cmdScore a (normalize_for_search query) = some sa →
        cmdScore b (normalize_for_search query) = some sb → sb ≤ sa) ∧
      (search_commands commands query).length ≤ 20 ∧
      (query ≠ "" →
        20 ≤ commands.countP (fun a => (cmdScore a (normalize_for_search query)).isSome) →
        (search_commands commands query).length = 20)) := by
  by_cases hq : query = ""
  · subst hq
    simp [search_apps, search_directories, search_commands]
  · unfold search_apps search_directories search_commands
    rw [if_neg hq, if_neg hq, if_neg hq]
    refine ⟨⟨rankTop20_pairwise _ apps, ?_, fun _ h => ?_⟩,
      ⟨rankTop20_pairwise _ dirs, ?_, fun _ h => ?_⟩,
      ⟨rankTop20_pairwise _ commands, ?_, fun _ h => ?_⟩⟩ <;>
    rw [rankTop20_length] <;> omega

/-- Witness for C4: thirty apps named `App0` … `App29`, all matching the query
`app`, yield exactly twenty results. -/
theorem search_results_sorted_and_capped_witness :
    (search_apps ((List.range 30).map fun i =>
        ⟨"App" ++ toString i, "/Applications/App" ++ toString i ++ ".app",
          none, none⟩) "app").length = 20 :=
  (search_results_sorted_and_capped _ [] [] "app").1.2.2 (by decide) (by decide)

theorem rankTop20_count_le {α : Type} [DecidableEq α] (scoreOf : α → Option Int)
    (items : List α) (a : α) :
    (rankTop20 (scoredPairs scoreOf items)).count a ≤ items.count a := by
  unfold rankTop20
  have h1 : (((stableSortBy scoreDesc (scoredPairs scoreOf items)).take 20).map
      Prod.snd).count a ≤
      ((stableSortBy scoreDesc (scoredPairs scoreOf items)).map Prod.snd).count a :=
    ((List.take_sublist 20 _).map Prod.snd).count_le a
  have h2 : ((stableSortBy scoreDesc (scoredPairs scoreOf items)).map
      Prod.snd).count a = ((scoredPairs scoreOf items).map Prod.snd).count a :=
    ((stableSortBy_perm scoreDesc _).map Prod.snd).count_eq a
  have h3 : ((scoredPairs scoreOf items).map Prod.snd).count a ≤ items.count a := by
    rw [map_snd_scoredPairs]
    exact (List.filter_sublist items).count_le a
  omega

/-- C5: in `search_apps`, an app carrying an `original_name` is scored against
both normalized fields and ranked by the maximum of the two scores, a single
matching field supplies the score alone, and no app is ever duplicated in the
result; the specification's Terminal example returns the item exactly once
under both queries. -/
theorem search_apps_dual_field (app : AppItem) (orig nq : String) (ns os : Int)
    (apps : List AppItem) (query : String) (a : AppItem) :
    (app.original_name = some orig →
      fuzzy_match (normalize_for_search app.name) nq = some ns →
      fuzzy_match (normalize_for_search orig) nq = some os →
      appBestScore app nq = some (max ns os)) ∧
    (app.original_name = some orig →
      fuzzy_match (normalize_for_search app.name) nq = some ns →
      fuzzy_match (normalize_for_search orig) nq = none →
      appBestScore app nq = some ns) ∧
    (app.original_name = some orig →
      fuzzy_match (normalize_for_search app.name) nq = none →
      fuzzy_match (normalize_for_search orig) nq = some os →
      appBestScore app nq = some os) ∧
    (search_apps apps query).count a ≤ apps.count a ∧
    search_apps
        [⟨"ターミナル", "/Applications/Utilities/Terminal.app", none, some "Terminal"⟩]
        "ter" =
      [⟨"ターミナル", "/Applications/Utilities/Terminal.app", none, some "Terminal"⟩] ∧
    search_apps
        [⟨"ターミナル", "/Applications/Utilities/Terminal.app", none, some "Terminal"⟩]
        "ターミナル" =
      [⟨"ターミナル", "/Applications/Utilities/Terminal.app", none, some "Terminal"⟩] := by
  refine ⟨fun ho h1 h2 => ?_, fun ho h1 h2 => ?_, fun ho h1 h2 => ?_, ?_,
    by decide, by decide⟩
  · simp [appBestScore, ho, h1, h2]
  · simp [appBestScore, ho, h1, h2]
  · simp [appBestScore, ho, h1, h2]
  · by_cases hq : query = ""
    · simp [search_apps, hq]
    · unfold search_apps
      rw [if_neg hq]
      exact rankTop20_count_le _ apps a

/-- Witness for C5 at a concrete app matched through both fields: both scores
exist and the maximum is used. -/
theorem search_apps_dual_field_witness :
    appBestScore ⟨"Safari", "/Applications/Safari.app", none, some "Safari Browser"⟩
        "sa" = some (max 3 3) :=
  (search_apps_dual_field
      ⟨"Safari", "/Applications/Safari.app", none, some "Safari Browser"⟩
      "Safari Browser" "sa" 3 3 [] "x"
      ⟨"Safari", "/Applications/Safari.app", none, some "Safari Browser"⟩).1
    (by decide) (by decide) (by decide)

theorem map_snd_filter_snd {α : Type} (p : α → Bool) :
    ∀ l : List (Int × α),
      (l.filter fun x => p x.2).map Prod.snd = (l.map Prod.snd).filter p
  | [] => rfl
  | x :: l => by
    cases hp : p x.2 <;> simp [List.filter_cons, hp, map_snd_filter_snd p l]

theorem rankTop20_tied_sublist {α : Type} [DecidableEq α]
    (scoreOf : α → Option Int) (items : List α) (s : Int) :
    ((rankTop20 (scoredPairs scoreOf items)).filter fun a =>
        scoreOf a = some s).Sublist
      (items.filter fun a => scoreOf a = some s) := by
  have hmem : ∀ x ∈ scoredPairs scoreOf items,
      (decide (scoreOf x.2 = some s)) =
        decide (OrderDual.toDual x.1 = OrderDual.toDual s) := by
    intro x hx
    have hx' := (mem_scoredPairs scoreOf items x hx).1
    rw [hx']
    simp
  have h1 : (rankTop20 (scoredPairs scoreOf items)).filter
      (fun a => scoreOf a = some s) =
      List.map Prod.snd
        (((stableSortBy scoreDesc (scoredPairs scoreOf items)).take 20).filter
          fun x => OrderDual.toDual x.1 = OrderDual.toDual s) := by
    unfold rankTop20
    rw [List.filter_map]
    refine congrArg (List.map Prod.snd) ?_
    refine List.filter_congr fun x hx => ?_
    exact hmem x ((stableSortBy_perm scoreDesc _).mem_iff.mp
      ((List.take_sublist 20 _).mem hx))
  have h2 : (((stableSortBy scoreDesc (scoredPairs scoreOf items)).take 20).filter
        fun x => OrderDual.toDual x.1 = OrderDual.toDual s).Sublist
      ((stableSortBy scoreDesc (scoredPairs scoreOf items)).filter
        fun x => OrderDual.toDual x.1 = OrderDual.toDual s) :=
    (List.take_sublist 20 _).filter _
  have h3 : ((stableSortBy scoreDesc (scoredPairs scoreOf items)).filter
        fun x => OrderDual.toDual x.1 = OrderDual.toDual s) =
      ((scoredPairs scoreOf items).filter
        fun x => OrderDual.toDual x.1 = OrderDual.toDual s) :=
    stableSortBy_filter (fun p : Int × α => OrderDual.toDual p.1) scoreDesc
      scoreDesc_iff (OrderDual.toDual s) (scoredPairs scoreOf items)
  have h4 : List.map Prod.snd
      ((scoredPairs scoreOf items).filter
        fun x => OrderDual.toDual x.1 = OrderDual.toDual s) =
      items.filter fun a => scoreOf a = some s := by
    rw [List.filter_congr fun x hx => (hmem x hx).symm,
      map_snd_filter_snd (fun a => decide (scoreOf a = some s)),
      map_snd_scoredPairs, List.filter_filter]
    refine List.filter_congr fun a _ => ?_
    cases hsc : scoreOf a <;> simp [hsc]
  rw [h1]
  have := (h2.map Prod.snd)
  rw [h3] at this
  rw [h4] at this
  exact this

/-- C10: in each search method, candidates that receive equal fuzzy scores
appear in the result in the same relative order they had in the input: the
result's elements of any one score form a subsequence of the input's elements
of that score. -/
theorem search_ties_keep_input_order
    (apps : List AppItem) (dirs : List DirectoryItem)
    (commands : List CommandItem) (query : String) (s : Int) :
    ((search_apps apps query).filter (fun a =>
        appBestScore a (normalize_for_search query) = some s)).Sublist
      (apps.filter fun a => appBestScore a (normalize_for_search query) = some s) ∧
    ((search_directories dirs query).filter (fun a =>
        dirScore a (normalize_for_search query) = some s)).Sublist
      (dirs.filter fun a => dirScore a (normalize_for_search query) = some s) ∧
    ((search_commands commands query).filter (fun a =>
        cmdScore a (normalize_for_search query) = some s)).Sublist
      (commands.filter fun a => cmdScore a (normalize_for_search query) = some s) := by
  by_cases hq : query = ""
  · subst hq
    simp [search_apps, search_directories, search_commands]
  · unfold search_apps search_directories search_commands
    rw [if_neg hq, if_neg hq, if_neg hq]
    exact ⟨rankTop20_tied_sublist _ apps s, rankTop20_tied_sublist _ dirs s,
      rankTop20_tied_sublist _ commands s⟩

/-! ## Lemmas about decimal conversion -/

theorem charDigit_digitChar (d : Nat) (hd : d < 10) :
    charDigit (Nat.digitChar d) = some d := by
  interval_cases d <;> decide

theorem parseDigitsAux_cons (c : Char) (cs : List Char) (acc : Nat) :
    parseDigitsAux (c :: cs) acc =
      match charDigit c with
      | some d => parseDigitsAux cs (acc * 10 + d)
      | none => none := rfl

theorem parseDigitsAux_append_some {l₁ : List Char} {acc m : Nat}
    (h : parseDigitsAux l₁ acc = some m) (l₂ : List Char) :
    parseDigitsAux (l₁ ++ l₂) acc = parseDigitsAux l₂ m := by
  induction l₁ generalizing acc with
  | nil =>
    cases h
    rfl
  | cons c cs ih =>
    rw [List.cons_append, parseDigitsAux_cons]
    rw [parseDigitsAux_cons] at h
    cases hcd : charDigit c with
    | none =>
      rw [hcd] at h
      exact absurd h (by simp)
    | some d =>
      rw [hcd] at h
      exact ih h

theorem natToDigitsCore_eq_natDigits :
    ∀ (fuel n : Nat) (ds : List Char), n < fuel →
      natToDigitsCore fuel n ds = natDigits n ++ ds := by
  intro fuel
  induction fuel with
  | zero => intro n ds h; omega
  | succ fuel ih =>
    intro n ds h
    simp only [natToDigitsCore]
    by_cases hq : n / 10 = 0
    · rw [if_pos hq]
      have hn : n < 10 := by omega
      rw [natDigits, dif_pos hn, Nat.mod_eq_of_lt hn]
      rfl
    · rw [if_neg hq]
      have h1 : n / 10 < fuel := by
        have := Nat.div_lt_self (n := n) (by omega) (show 1 < 10 by omega)
        omega
      rw [ih (n / 10) (Nat.digitChar (n % 10) :: ds) h1]
      have hn : ¬ n < 10 := by omega
      conv_rhs => rw [natDigits]
      rw [dif_neg hn]
      simp

theorem natToDigits_eq_natDigits (n : Nat) : natToDigits n = natDigits n := by
  unfold natToDigits
  rw [natToDigitsCore_eq_natDigits (n + 1) n [] (by omega)]
  simp

theorem parse_natDigits (n : Nat) : ∀ acc : Nat,
    parseDigitsAux (natDigits n) acc =
      some (acc * 10 ^ (natDigits n).length + n) := by
  induction n using Nat.strong_induction_on with
  | _ n ih =>
    intro acc
    by_cases hn : n < 10
    · rw [natDigits, dif_pos hn]
      unfold parseDigitsAux
      rw [charDigit_digitChar n hn]
      simp [parseDigitsAux]
    · rw [natDigits, dif_neg hn]
      have hq : n / 10 < n := Nat.div_lt_self (by omega) (by omega)
      rw [parseDigitsAux_append_some (ih (n / 10) hq acc) _]
      have hd : n % 10 < 10 := Nat.mod_lt _ (by omega)
      unfold parseDigitsAux
      rw [charDigit_digitChar _ hd]
      simp only [parseDigitsAux, List.length_append, List.length_cons,
        List.length_nil]
      congr 1
      set L := (natDigits (n / 10)).length with hL
      have hpow : 10 ^ (L + (0 + 1)) = 10 ^ L * 10 := by
        norm_num [pow_succ]
      rw [hpow, ← mul_assoc]
      set M := acc * 10 ^ L with hM
      omega

theorem natDigits_ne_nil (n : Nat) : natDigits n ≠ [] := by
  rw [natDigits]
  split <;> simp

theorem parseDigits_natDigits (n : Nat) : parseDigits (natDigits n) = some n := by
  have h := parse_natDigits n 0
  rcases hdig : natDigits n with _ | ⟨c, cs⟩
  · exact absurd hdig (natDigits_ne_nil n)
  · rw [hdig] at h
    show parseDigitsAux (c :: cs) 0 = some n
    simpa using h

theorem natDigits_head : ∀ n : Nat,
    ∃ d cs, natDigits n = Nat.digitChar d :: cs ∧ d < 10 := by
  intro n
  induction n using Nat.strong_induction_on with
  | _ n ih =>
    by_cases hn : n < 10
    · exact ⟨n, [], by rw [natDigits, dif_pos hn], hn⟩
    · have hq : n / 10 < n := Nat.div_lt_self (by omega) (by omega)
      rcases ih (n / 10) hq with ⟨d, cs, hcs, hd⟩
      refine ⟨d, cs ++ [Nat.digitChar (n % 10)], ?_, hd⟩
      rw [natDigits, dif_neg hn, hcs]
      simp

theorem digitChar_not_sign (d : Nat) (hd : d < 10) :
    Nat.digitChar d ≠ '-' ∧ Nat.digitChar d ≠ '+' := by
  interval_cases d <;> exact ⟨by decide, by decide⟩

/-- Decimal formatting and parsing round-trip: what `set_last_update_time`
writes, `get_last_update_time` parses back to the same value. -/
theorem rustParseInt_rustIntToString (t : Int) :
    rustParseInt (rustIntToString t) = some t := by
  by_cases ht : t < 0
  · unfold rustIntToString
    rw [if_pos ht]
    show rustParseInt ⟨'-' :: natToDigits (-t).toNat⟩ = some t
    unfold rustParseInt
    simp only [natToDigits_eq_natDigits, if_pos rfl]
    rw [parseDigits_natDigits]
    have : ((-t).toNat : Int) = -t := Int.toNat_of_nonneg (by omega)
    simp [Option.map_some, this]
  · unfold rustIntToString
    rw [if_neg ht]
    show rustParseInt ⟨natToDigits t.toNat⟩ = some t
    unfold rustParseInt
    rcases natDigits_head t.toNat with ⟨d, cs, hcs, hd⟩
    rw [natToDigits_eq_natDigits]
    simp only [hcs]
    rw [if_neg (digitChar_not_sign d hd).1, if_neg (digitChar_not_sign d hd).2,
      ← hcs, parseDigits_natDigits]
    have : (t.toNat : Int) = t := Int.toNat_of_nonneg (by omega)
    simp [this]

/-! ## Lemmas about the metadata timestamp -/

theorem lookup_upsert (l : List (String × String)) (k v : String) :
    ((l.filter fun kv => kv.1 ≠ k) ++ [(k, v)]).lookup k = some v := by
  induction l with
  | nil => simp [List.lookup]
  | cons kv rest ih =>
    rw [List.filter_cons]
    by_cases hk : kv.1 = k
    · simp only [hk]
      simpa using ih
    · rw [if_pos (by simpa using hk), List.cons_append]
      have hbeq : (k == kv.1) = false := beq_eq_false_iff_ne.mpr (Ne.symm hk)
      simpa [List.lookup, hbeq] using ih

theorem get_last_update_time_set (db : CacheDB) (t : Int) :
    get_last_update_time (set_last_update_time db t) = .ok (some t) := by
  unfold get_last_update_time metadataQuery set_last_update_time
  simp only [lookup_upsert]
  show Except.ok (some ((rustParseInt (rustIntToString t)).getD 0)) =
    Except.ok (some t)
  rw [rustParseInt_rustIntToString]
  rfl

/-- C9: with storage reads succeeding, `needs_update` is `true` exactly when no
timestamp was ever recorded or the stored timestamp lags `now` by at least
`interval_hours * 3600` seconds; immediately after `set_last_update_time now`
a one-hour interval reports `false`, and a timestamp two hours in the past
reports `true`. -/
theorem needs_update_staleness (db : CacheDB) (now : Int) (interval_hours : Nat) :
    (needs_update db now interval_hours = .ok true ↔
      get_last_update_time db = .ok none ∨
        ∃ t, get_last_update_time db = .ok (some t) ∧
          (interval_hours : Int) * 3600 ≤ now - t) ∧
    (∀ t : Int, needs_update (set_last_update_time db t) now interval_hours =
      .ok (decide ((interval_hours : Int) * 3600 ≤ now - t))) ∧
    needs_update (set_last_update_time db now) now 1 = .ok false ∧
    needs_update (set_last_update_time db (now - 7200)) now 1 = .ok true := by
  have hset : ∀ (t : Int) (ih : Nat),
      needs_update (set_last_update_time db t) now ih =
        .ok (decide ((ih : Int) * 3600 ≤ now - t)) := by
    intro t ih
    unfold needs_update
    rw [get_last_update_time_set]
  refine ⟨?_, fun t => hset t interval_hours, ?_, ?_⟩
  · rcases hl : db.metadata.lookup "last_update_time" with _ | v
    · have hg : get_last_update_time db = .ok none := by
        unfold get_last_update_time metadataQuery
        rw [hl]
        rfl
      unfold needs_update
      rw [hg]
      simp [hg]
    · have hg : get_last_update_time db =
          .ok (some ((rustParseInt v).getD 0)) := by
        unfold get_last_update_time metadataQuery
        rw [hl]
        rfl
      unfold needs_update
      rw [hg]
      simp [hg]
  · rw [hset now 1]
    simp
  · rw [hset (now - 7200) 1]
    norm_num

/-! ## Lemmas about the transactional saves -/

theorem foldlM_insertAppRow (now : Int) :
    ∀ (apps : List AppItem) (rows : List AppRow),
      (rows.map AppRow.path ++ apps.map AppItem.path).Nodup →
      apps.foldlM (fun rows app => insertAppRow rows app now) rows =
        .ok (rows ++ apps.map fun a =>
          (⟨a.name, a.path, a.icon_path, a.original_name, now⟩ : AppRow))
  | [], rows => fun _ => by
    rw [List.map_nil, List.append_nil]
    rfl
  | a :: apps, rows => fun h => by
    have hdisj : ¬ a.path ∈ rows.map AppRow.path := by
      rcases List.nodup_append.mp h with ⟨_, _, hdisj⟩
      intro hmem
      exact hdisj hmem (by simp)
    have hany : ¬ rows.any (fun r => r.path = a.path) = true := by
      intro hc
      rcases List.any_eq_true.mp hc with ⟨r, hr, hpath⟩
      exact hdisj (List.mem_map.mpr ⟨r, hr, by simpa using hpath⟩)
    have hinsert : insertAppRow rows a now =
        .ok (rows ++ [⟨a.name, a.path, a.icon_path, a.original_name, now⟩]) := by
      unfold insertAppRow
      rw [if_neg hany]
    rw [List.foldlM_cons, hinsert]
    have h' : ((rows ++ [(⟨a.name, a.path, a.icon_path, a.original_name, now⟩ :
        AppRow)]).map AppRow.path ++ apps.map AppItem.path).Nodup := by
      simpa using h
    show apps.foldlM (fun rows app => insertAppRow rows app now) _ = _
    rw [foldlM_insertAppRow now apps _ h']
    simp

theorem foldlM_insertDirectoryRow (now : Int) :
    ∀ (dirs : List DirectoryItem) (rows : List DirectoryRow),
      (rows.map DirectoryRow.path ++ dirs.map DirectoryItem.path).Nodup →
      dirs.foldlM (fun rows dir => insertDirectoryRow rows dir now) rows =
        .ok (rows ++ dirs.map fun d =>
          (⟨d.name, d.path, d.editor, now⟩ : DirectoryRow))
  | [], rows => fun _ => by
    rw [List.map_nil, List.append_nil]
    rfl
  | d :: dirs, rows => fun h => by
    have hdisj : ¬ d.path ∈ rows.map DirectoryRow.path := by
      rcases List.nodup_append.mp h with ⟨_, _, hdisj⟩
      intro hmem
      exact hdisj hmem (by simp)
    have hany : ¬ rows.any (fun r => r.path = d.path) = true := by
      intro hc
      rcases List.any_eq_true.mp hc with ⟨r, hr, hpath⟩
      exact hdisj (List.mem_map.mpr ⟨r, hr, by simpa using hpath⟩)
    have hinsert : insertDirectoryRow rows d now =
        .ok (rows ++ [⟨d.name, d.path, d.editor, now⟩]) := by
      unfold insertDirectoryRow
      rw [if_neg hany]
    rw [List.foldlM_cons, hinsert]
    have h' : ((rows ++ [(⟨d.name, d.path, d.editor, now⟩ :
        DirectoryRow)]).map DirectoryRow.path ++ dirs.map DirectoryItem.path).Nodup := by
      simpa using h
    show dirs.foldlM (fun rows dir => insertDirectoryRow rows dir now) _ = _
    rw [foldlM_insertDirectoryRow now dirs _ h']
    simp

theorem save_apps_eq (db : CacheDB) (apps : List AppItem) (now : Int)
    (h : (apps.map AppItem.path).Nodup) :
    save_apps db apps now = .ok { db with apps := apps.map fun a =>
      (⟨a.name, a.path, a.icon_path, a.original_name, now⟩ : AppRow) } := by
  unfold save_apps
  rw [foldlM_insertAppRow now apps [] (by simpa using h)]
  rfl

theorem save_directories_eq (db : CacheDB) (dirs : List DirectoryItem)
    (now : Int) (h : (dirs.map DirectoryItem.path).Nodup) :
    save_directories db dirs now = .ok { db with directories := dirs.map fun d =>
      (⟨d.name, d.path, d.editor, now⟩ : DirectoryRow) } := by
  unfold save_directories
  rw [foldlM_insertDirectoryRow now dirs [] (by simpa using h)]
  rfl

theorem map_appRow_roundtrip (now : Int) (l : List AppItem) :
    (l.map fun a =>
      (⟨a.name, a.path, a.icon_path, a.original_name, now⟩ : AppRow)).map
        appRowToItem = l := by
  rw [List.map_map]
  exact (List.map_congr_left fun a _ => rfl).trans (List.map_id l)

theorem map_directoryRow_roundtrip (now : Int) (l : List DirectoryItem) :
    (l.map fun d => (⟨d.name, d.path, d.editor, now⟩ : DirectoryRow)).map
        directoryRowToItem = l := by
  rw [List.map_map]
  exact (List.map_congr_left fun a _ => rfl).trans (List.map_id l)

theorem load_apps_perm_sorted (db : CacheDB) :
    (load_apps db).Perm (db.apps.map appRowToItem) ∧
      (load_apps db).Pairwise fun a b => a.name ≤ b.name := by
  constructor
  · exact (stableSortBy_perm _ db.apps).map appRowToItem
  · unfold load_apps
    rw [List.pairwise_map]
    have hsort := stableSortBy_pairwise (fun r : AppRow => r.name.data)
      (fun r s => nameAsc r.name s.name)
      (fun a b => nameAsc_iff a.name b.name) db.apps
    exact hsort.imp fun hab => String.le_iff_toList_le.mpr hab

theorem load_directories_perm_sorted (db : CacheDB) :
    (load_directories db).Perm (db.directories.map directoryRowToItem) ∧
      (load_directories db).Pairwise fun a b => a.name ≤ b.name := by
  constructor
  · exact (stableSortBy_perm _ db.directories).map directoryRowToItem
  · unfold load_directories
    rw [List.pairwise_map]
    have hsort := stableSortBy_pairwise (fun r : DirectoryRow => r.name.data)
      (fun r s => nameAsc r.name s.name)
      (fun a b => nameAsc_iff a.name b.name) db.directories
    exact hsort.imp fun hab => String.le_iff_toList_le.mpr hab

/-- C2: saving a pairwise-distinct-path snapshot succeeds from any prior
database state, and loading afterwards returns exactly the saved items —
fields intact, nothing from any earlier save — sorted ascending by the stored
name; likewise for directories. -/
theorem cache_round_trip_last_save_wins (db : CacheDB) (apps : List AppItem)
    (dirs : List DirectoryItem) (now now' : Int)
    (ha : (apps.map AppItem.path).Nodup)
    (hd : (dirs.map DirectoryItem.path).Nodup) :
    (∃ db1, save_apps db apps now = .ok db1 ∧
      (load_apps db1).Perm apps ∧
      (load_apps db1).Pairwise fun a b => a.name ≤ b.name) ∧
    (∃ db2, save_directories db dirs now' = .ok db2 ∧
      (load_directories db2).Perm dirs ∧
      (load_directories db2).Pairwise fun a b => a.name ≤ b.name) := by
  constructor
  · refine ⟨_, save_apps_eq db apps now ha, ?_, (load_apps_perm_sorted _).2⟩
    have hperm := (load_apps_perm_sorted { db with apps := apps.map (fun a =>
      (⟨a.name, a.path, a.icon_path, a.original_name, now⟩ : AppRow)) }).1
    have hmap : ({ db with apps := apps.map (fun a =>
        (⟨a.name, a.path, a.icon_path, a.original_name, now⟩ : AppRow)) } :
        CacheDB).apps.map appRowToItem = apps := map_appRow_roundtrip now apps
    rwa [hmap] at hperm
  · refine ⟨_, save_directories_eq db dirs now' hd, ?_,
      (load_directories_perm_sorted _).2⟩
    have hperm := (load_directories_perm_sorted { db with
      directories := dirs.map (fun d =>
        (⟨d.name, d.path, d.editor, now'⟩ : DirectoryRow)) }).1
    have hmap : ({ db with directories := dirs.map (fun d =>
        (⟨d.name, d.path, d.editor, now'⟩ : DirectoryRow)) } :
        CacheDB).directories.map directoryRowToItem = dirs :=
      map_directoryRow_roundtrip now' dirs
    rwa [hmap] at hperm

/-- Witness for C2: over a database already holding an older snapshot, saving
two apps and one directory and loading back returns exactly the new items,
sorted by name. -/
theorem cache_round_trip_last_save_wins_witness :
    (∃ db1, save_apps
        ⟨[⟨"Old", "/Applications/Old.app", none, none, 1⟩], [], []⟩
        [⟨"Safari", "/Applications/Safari.app", none, none⟩,
         ⟨"Mail", "/Applications/Mail.app", none, none⟩] 5 = .ok db1 ∧
      (load_apps db1).Perm
        [⟨"Safari", "/Applications/Safari.app", none, none⟩,
         ⟨"Mail", "/Applications/Mail.app", none, none⟩] ∧
      (load_apps db1).Pairwise fun a b => a.name ≤ b.name) ∧
    (∃ db2, save_directories
        ⟨[⟨"Old", "/Applications/Old.app", none, none, 1⟩], [], []⟩
        [⟨"Projects", "/Users/test/Projects", some "cursor"⟩] 6 = .ok db2 ∧
      (load_directories db2).Perm
        [⟨"Projects", "/Users/test/Projects", some "cursor"⟩] ∧
      (load_directories db2).Pairwise fun a b => a.name ≤ b.name) :=
  cache_round_trip_last_save_wins
    ⟨[⟨"Old", "/Applications/Old.app", none, none, 1⟩], [], []⟩
    [⟨"Safari", "/Applications/Safari.app", none, none⟩,
     ⟨"Mail", "/Applications/Mail.app", none, none⟩]
    [⟨"Projects", "/Users/test/Projects", some "cursor"⟩] 5 6
    (by decide) (by decide)

/-! ## The error behaviour of `get_last_update_time` -/

/-- C1 counterexample: when the metadata query fails with a storage error, the
`match` of `get_last_update_time` maps it to a successful `None` instead of
returning the error to the caller. -/
theorem get_last_update_time_storage_error_swallowed :
    get_last_update_time_from (.error (.storage "disk I/O error")) = .ok none ∧
      get_last_update_time_from (.error (.storage "disk I/O error")) ≠
        .error (.storage "disk I/O error") := by
  exact ⟨rfl, by decide⟩

/-- C1 amended: `get_last_update_time` maps every failure of its metadata
query — the benign no-rows case and genuine storage errors alike — to the
successful `Ok(None)`; no error is surfaced to the caller. -/
theorem get_last_update_time_error_to_none (e : RusqliteError) :
    get_last_update_time_from (.error e) = .ok none := rfl

end Ignitero
